import Mathlib

/-!
Shallow embedding of the PostgresLevel key-value store and its range
iterator (src/lib/postgres-level.ts, src/lib/postgres-iterator.ts).

The backing table `tina_kv` is modelled as a list of rows; a SQL
`SELECT ... WHERE ... ORDER BY key ASC|DESC LIMIT n OFFSET m` is modelled
as filter + sort + drop + take over that list.  The connection pool is an
external collaborator: fallible backend calls are abstracted as `Except`
oracles, and the deterministic table-backed oracle instantiates them.
Machine numbers: JavaScript's `Infinity` sentinel on `limit` is modelled
as `Option Int` with `none` for `Infinity`.
-/

namespace PgLevel

/-- A row of the backing table `tina_kv`: `(namespace, key, value)`.
Namespaces are text in the source; keys are any linearly ordered type
(text in the deployed schema, where `ORDER BY key` under the pinned
byte-wise collation is the lexicographic order on strings). -/
structure Row (K V : Type) where
  ns : String
  key : K
  value : V
deriving DecidableEq, Repr

/-- The backing table: a bag of rows. -/
abbrev Table (K V : Type) := List (Row K V)

/-- The invariant enforced by `PRIMARY KEY (namespace, key)`:
no two rows share the `(namespace, key)` pair. -/
def wfTable {K V : Type} (tbl : Table K V) : Prop :=
  (tbl.map fun r => (r.ns, r.key)).Nodup

instance {K V : Type} [DecidableEq K] (tbl : Table K V) :
    Decidable (wfTable tbl) :=
  decidable_of_iff ((tbl.map fun r : Row K V => (r.ns, r.key)).Nodup) Iff.rfl

/-- `DEFAULT_LIMIT` from postgres-iterator.ts line 15. -/
def DEFAULT_LIMIT : Nat := 50

/-- The fields of `IteratorOptions` that `_next` reads.  `limit = none`
models the JavaScript `Infinity`; encodings and the debug flag only
affect logging and are omitted. -/
structure IterOptions (K : Type) where
  gt : Option K := none
  gte : Option K := none
  lt : Option K := none
  lte : Option K := none
  reverse : Bool := false
  keys : Bool := true
  values : Bool := true
  limit : Option Int := none
  offset : Nat := 0

/-- Lower-bound clause of the WHERE condition, as built in
postgres-iterator.ts lines 85-93 (and identically in `_clear`,
postgres-level.ts lines 346-354): `gt` translates to `key > $i` and
takes precedence over `gte`, which translates to `key >= $i`. -/
def lowerOk {K : Type} [LinearOrder K] (gtO gteO : Option K) (k : K) : Bool :=
  match gtO with
  | some g => decide (g < k)
  | none =>
    match gteO with
    | some g => decide (g ≤ k)
    | none => true

/-- Upper-bound clause: `lt` translates to `key < $i` and takes precedence
over `lte`, which translates to `key <= $i` (postgres-iterator.ts lines
95-103, postgres-level.ts lines 356-364). -/
def upperOk {K : Type} [LinearOrder K] (ltO lteO : Option K) (k : K) : Bool :=
  match ltO with
  | some u => decide (k < u)
  | none =>
    match lteO with
    | some u => decide (k ≤ u)
    | none => true

/-- The full WHERE condition: `namespace = $1` plus the translated bounds. -/
def rowMatches {K V : Type} [LinearOrder K] (ns : String)
    (gtO gteO ltO lteO : Option K) (r : Row K V) : Bool :=
  decide (r.ns = ns) && lowerOk gtO gteO r.key && upperOk ltO lteO r.key

/-- `ORDER BY key ASC` comparison on rows. -/
def rowLeAsc {K V : Type} [LinearOrder K] (a b : Row K V) : Prop := a.key ≤ b.key

/-- `ORDER BY key DESC` comparison on rows. -/
def rowLeDesc {K V : Type} [LinearOrder K] (a b : Row K V) : Prop := b.key ≤ a.key

instance {K V : Type} [LinearOrder K] : DecidableRel (rowLeAsc (K := K) (V := V)) :=
  fun a b => inferInstanceAs (Decidable (a.key ≤ b.key))

instance {K V : Type} [LinearOrder K] : DecidableRel (rowLeDesc (K := K) (V := V)) :=
  fun a b => inferInstanceAs (Decidable (b.key ≤ a.key))

instance {K V : Type} [LinearOrder K] : IsTotal (Row K V) rowLeAsc :=
  ⟨fun a b => le_total a.key b.key⟩

instance {K V : Type} [LinearOrder K] : IsTrans (Row K V) rowLeAsc :=
  ⟨fun _ _ _ h h' => le_trans h h'⟩

instance {K V : Type} [LinearOrder K] : IsTotal (Row K V) rowLeDesc :=
  ⟨fun a b => le_total b.key a.key⟩

instance {K V : Type} [LinearOrder K] : IsTrans (Row K V) rowLeDesc :=
  ⟨fun _ _ _ h h' => le_trans h' h⟩

/-- The backend's `ORDER BY key ASC|DESC` on a result set. -/
def sortRows {K V : Type} [LinearOrder K] (rev : Bool) (l : List (Row K V)) :
    List (Row K V) :=
  if rev then l.insertionSort rowLeDesc else l.insertionSort rowLeAsc

/-- All rows of the namespace matching the translated bounds, in scan
order (`ORDER BY key` ascending, or descending when `reverse`). -/
def orderedMatches {K V : Type} [LinearOrder K] (tbl : Table K V) (ns : String)
    (gtO gteO ltO lteO : Option K) (rev : Bool) : Table K V :=
  sortRows rev (tbl.filter (rowMatches ns gtO gteO ltO lteO))

/-- `resultLimit` from the iterator constructor (postgres-iterator.ts lines
61-64): the caller's limit when it is finite (not `Infinity`) and
non-negative, else `DEFAULT_LIMIT`. -/
def resultLimit (limit : Option Int) : Nat :=
  match limit with
  | some l => if 0 ≤ l then l.toNat else DEFAULT_LIMIT
  | none => DEFAULT_LIMIT

/-- One page query issued by `_next` (postgres-iterator.ts lines 111-127):
`SELECT ... WHERE <conditions> ORDER BY key <dir> LIMIT resultLimit
OFFSET off`.  The varying SELECT column list only narrows what reaches
`entryOf`; the model returns full rows and projects there. -/
def pageQuery {K V : Type} [LinearOrder K] (tbl : Table K V) (ns : String)
    (o : IterOptions K) (off : Nat) : Table K V :=
  ((orderedMatches tbl ns o.gt o.gte o.lt o.lte o.reverse).drop off).take
    (resultLimit o.limit)

/-- What one delivered iterator entry carries, per the `keys`/`values`
flags (postgres-iterator.ts lines 134-140). -/
abbrev Entry (K V : Type) := Option K × Option V

def entryOf {K V : Type} (o : IterOptions K) (r : Row K V) : Entry K V :=
  (if o.keys then some r.key else none, if o.values then some r.value else none)

/-- The iterator's private mutable state: next page offset, the
already-fetched-but-undelivered buffer, and the terminal flag. -/
structure IterState (K V : Type) where
  offset : Nat
  results : List (Entry K V)
  finished : Bool
deriving Repr

/-- State after the constructor (postgres-iterator.ts lines 65-67). -/
def initState {K V : Type} (o : IterOptions K) : IterState K V :=
  ⟨o.offset, [], false⟩

/-- One `_next` call (postgres-iterator.ts lines 71-160).  `fetch off` is
the backend's response to the page query at offset `off` — rows, or a
driver error (the `catch` branch).  Returns the new state, the entry
delivered to the callback (`none` = end-of-sequence; note the callback's
error argument is `undefined` on every path of the source), and whether a
backend query was issued by this call. -/
def nextStep {K V : Type} (fetch : Nat → Except String (Table K V))
    (o : IterOptions K) (s : IterState K V) :
    IterState K V × Option (Entry K V) × Bool :=
  if s.finished then (s, none, false)
  else
    match s.results with
    | e :: rest => ({ s with results := rest }, some e, false)
    | [] =>
      match fetch s.offset with
      | .error _ => ({ s with finished := true }, none, true)
      | .ok rows =>
        match rows with
        | [] => ({ s with finished := true }, none, true)
        | r :: rs =>
          ({ s with
              results := rs.map (entryOf o),
              offset := s.offset + resultLimit o.limit },
            some (entryOf o r), true)

/-- Drive `_next` repeatedly until it signals end-of-sequence (or fuel
runs out), collecting the delivered entries, the total number of backend
queries issued, and the number of those queries that returned rows. -/
def driveCount {K V : Type} (fetch : Nat → Except String (Table K V))
    (o : IterOptions K) : Nat → IterState K V → List (Entry K V) × Nat × Nat
  | 0, _ => ([], 0, 0)
  | fuel + 1, s =>
    match nextStep fetch o s with
    | (s', some e, issued) =>
      let rest := driveCount fetch o fuel s'
      (e :: rest.1, rest.2.1 + (if issued then 1 else 0),
        rest.2.2 + (if issued then 1 else 0))
    | (_, none, issued) => ([], (if issued then 1 else 0), 0)

/-- The entries a full scan delivers. -/
def driveEntries {K V : Type} (fetch : Nat → Except String (Table K V))
    (o : IterOptions K) (fuel : Nat) (s : IterState K V) : List (Entry K V) :=
  (driveCount fetch o fuel s).1

/-- The deterministic backend for a fixed table state: every page query is
answered from `tbl`. -/
def tableFetch {K V : Type} [LinearOrder K] (tbl : Table K V) (ns : String)
    (o : IterOptions K) : Nat → Except String (Table K V) :=
  fun off => .ok (pageQuery tbl ns o off)

/-- Modelled from the spec: the total-results guard of the public iterator
`next` lives in the `abstract-level` base class (wired through the
`super(db, options)` call of the constructor), not under src/.  Per the
spec, the range predicate carries "a `limit` bounding total results
returned (unbounded when absent/infinite)": the wrapper counts delivered
entries and ends the sequence once the count reaches the limit. -/
def limitAllows (limit : Option Int) (cnt : Nat) : Bool :=
  match limit with
  | some l => decide ((cnt : Int) < l)
  | none => true

/-- Modelled from the spec: driving the public `next` — each call first
checks the delivered-entry count against the caller's limit and ends the
sequence when it is reached, otherwise defers to `_next` (`nextStep`). -/
def publicDrive {K V : Type} (fetch : Nat → Except String (Table K V))
    (o : IterOptions K) : Nat → Nat → IterState K V → List (Entry K V)
  | 0, _, _ => []
  | fuel + 1, cnt, s =>
    if limitAllows o.limit cnt then
      match nextStep fetch o s with
      | (s', some e, _) => e :: publicDrive fetch o fuel (cnt + 1) s'
      | (_, none, _) => []
    else []

/-- The error kinds a store operation can report (postgres-level.ts).
`notFound` is the dedicated `LevelError` with code `LEVEL_NOT_FOUND`
(lines 14-21, 200-206); `backend` is any driver/query failure forwarded
as-is from the `catch` branches. -/
inductive LevelErr where
  | notFound (message : String)
  | backend (message : String)
deriving DecidableEq, Repr

/-- `_get` (postgres-level.ts lines 179-210):
`SELECT value FROM tina_kv WHERE namespace = $1 AND key = $2`; the first
returned row's value on a hit, a `LEVEL_NOT_FOUND` error otherwise. -/
def getQ {K V : Type} [DecidableEq K] (tbl : Table K V) (ns : String) (k : K) :
    Except LevelErr V :=
  match tbl.filter (fun r => decide (r.ns = ns) && decide (r.key = k)) with
  | [] => .error (.notFound "Key was not found")
  | r :: _ => .ok r.value

/-- `_getMany` (postgres-level.ts lines 212-242): one
`SELECT key, value ... WHERE namespace = $1 AND key IN (...)`, a map from
key to value built row by row (a later row for the same key overwrites an
earlier one, as `Map.set` does), then one lookup per requested key in
input order, `none` marking absence. -/
def getManyQ {K V : Type} [DecidableEq K] (tbl : Table K V) (ns : String)
    (ks : List K) : List (Option V) :=
  let rows := tbl.filter (fun r => decide (r.ns = ns) && decide (r.key ∈ ks))
  ks.map (fun k => ((rows.reverse.find? (fun r => decide (r.key = k))).map
    fun r => r.value))

/-- `_put` (postgres-level.ts lines 244-266):
`INSERT INTO tina_kv (namespace, key, value) VALUES ($1,$2,$3)
ON CONFLICT (namespace, key) DO UPDATE SET value = EXCLUDED.value` —
a single-statement upsert: overwrite the value in place when a row with
the `(namespace, key)` pair exists, insert a fresh row otherwise. -/
def putQ {K V : Type} [DecidableEq K] (tbl : Table K V) (ns : String) (k : K)
    (v : V) : Table K V :=
  if tbl.any (fun r => decide (r.ns = ns) && decide (r.key = k)) then
    tbl.map (fun r => if r.ns = ns ∧ r.key = k then { r with value := v } else r)
  else tbl ++ [⟨ns, k, v⟩]

/-- `_del` (postgres-level.ts lines 268-286):
`DELETE FROM tina_kv WHERE namespace = $1 AND key = $2`. -/
def delQ {K V : Type} [DecidableEq K] (tbl : Table K V) (ns : String) (k : K) :
    Table K V :=
  tbl.filter (fun r => !(decide (r.ns = ns) && decide (r.key = k)))

/-- A batch operation (postgres-level.ts lines 31-35 and 306-321):
`put` carries a key and a value, `del` a key. -/
inductive BatchOp (K V : Type) where
  | put (key : K) (value : V)
  | del (key : K)
deriving DecidableEq, Repr

/-- The table effect of one batch operation: the same upsert statement as
`_put` for `put`, the same delete statement as `_del` for `del`
(postgres-level.ts lines 306-321). -/
def applyOp {K V : Type} [DecidableEq K] (ns : String) (tbl : Table K V) :
    BatchOp K V → Table K V
  | .put k v => putQ tbl ns k v
  | .del k => delQ tbl ns k

/-- Running the operations of a batch in list order inside the transaction:
`fails` is the backend oracle saying which statements the driver rejects;
the first failing operation aborts with its error, otherwise every
operation is applied in order. -/
def runBatchOps {K V : Type} [DecidableEq K] (fails : BatchOp K V → Bool)
    (ns : String) : Table K V → List (BatchOp K V) → Except String (Table K V)
  | tbl, [] => .ok tbl
  | tbl, op :: rest =>
    if fails op then .error "batch operation failed"
    else runBatchOps fails ns (applyOp ns tbl op) rest

/-- Observable outcome of a `_batch` call. -/
structure BatchOutcome (K V : Type) where
  /-- Committed table state after the call. -/
  table : Table K V
  /-- The error handed to the callback, if any. -/
  error : Option String
  /-- Number of backend round trips (BEGIN, statements, COMMIT/ROLLBACK). -/
  roundTrips : Nat
  /-- Whether a dedicated connection was checked out of the pool. -/
  acquired : Bool
  /-- Whether that connection was released back (the `finally` branch). -/
  released : Bool
deriving Repr

/-- `_batch` (postgres-level.ts lines 288-331).  An empty list returns at
once — no connection checkout, no query.  Otherwise one dedicated
connection runs BEGIN, the operations in order, and COMMIT; any statement
failure rolls the transaction back (per the backend's BEGIN/ROLLBACK
contract the table is then unchanged) and forwards the error; the
`finally` branch releases the connection on both paths. -/
def batchQ {K V : Type} [DecidableEq K] (fails : BatchOp K V → Bool)
    (ns : String) (tbl : Table K V) (ops : List (BatchOp K V)) :
    BatchOutcome K V :=
  match ops with
  | [] => ⟨tbl, none, 0, false, false⟩
  | _ :: _ =>
    match runBatchOps fails ns tbl ops with
    | .ok t => ⟨t, none, ops.length + 2, true, true⟩
    | .error e =>
      ⟨tbl, some e, (ops.takeWhile (fun op => !fails op)).length + 3, true, true⟩

/-- The fields of `ClearOptions` that `_clear` reads (postgres-level.ts
lines 37-46); `limit = none` models `Infinity`. -/
structure ClearOpts (K : Type) where
  gt : Option K := none
  gte : Option K := none
  lt : Option K := none
  lte : Option K := none
  reverse : Bool := false
  limit : Option Int := none

/-- `_clear` (postgres-level.ts lines 333-387).  With a finite
non-negative limit the statement is
`DELETE FROM tina_kv WHERE (namespace, key) IN (SELECT namespace, key
FROM tina_kv WHERE <conditions> ORDER BY key <dir> LIMIT $n)` — the
victims are the first `limit` matching rows in scan order; otherwise it
is the unbounded `DELETE FROM tina_kv WHERE <conditions>`. -/
def clearQ {K V : Type} [LinearOrder K] (tbl : Table K V) (ns : String)
    (o : ClearOpts K) : Table K V :=
  match o.limit with
  | some l =>
    if 0 ≤ l then
      let victims :=
        ((orderedMatches tbl ns o.gt o.gte o.lt o.lte o.reverse).take l.toNat).map
          fun r => (r.ns, r.key)
      tbl.filter (fun r => !(decide ((r.ns, r.key) ∈ victims)))
    else tbl.filter (fun r => !(rowMatches ns o.gt o.gte o.lt o.lte r))
  | none => tbl.filter (fun r => !(rowMatches ns o.gt o.gte o.lt o.lte r))

/-- In-process schema state seen by `ensureTable`: the `initialized`
flag of the store instance plus whether the backing table and index
exist in the database (the effect of the two `CREATE ... IF NOT EXISTS`
statements). -/
structure SchemaState where
  ready : Bool
  tableExists : Bool
  indexExists : Bool
deriving DecidableEq, Repr

/-- `ensureTable` (postgres-level.ts lines 122-150).  If the ready flag is
set, return at once with no backend I/O.  Otherwise run the
`CREATE TABLE IF NOT EXISTS tina_kv (namespace TEXT NOT NULL, key TEXT
NOT NULL, value TEXT NOT NULL, PRIMARY KEY (namespace, key))` statement,
then the `CREATE INDEX IF NOT EXISTS idx_tina_kv_namespace_key ON
tina_kv (namespace, key)` statement (`ddlTable`, `ddlIndex` are the
backend's verdicts); only after both succeed is the ready flag set; a
failure rethrows the error and leaves the flag unset.  Returns the new
state, the call's outcome, and the number of queries issued. -/
def ensureTable (s : SchemaState) (ddlTable ddlIndex : Except String Unit) :
    SchemaState × Except String Unit × Nat :=
  if s.ready then (s, .ok (), 0)
  else
    match ddlTable with
    | .error e => (s, .error e, 1)
    | .ok () =>
      match ddlIndex with
      | .error e => ({ s with tableExists := true }, .error e, 2)
      | .ok () => (⟨true, true, true⟩, .ok (), 2)

/-- Iterating the same range predicate a `_clear` call received: same
bounds, same direction, same limit, keys and values requested, offset 0. -/
def iterOptsOfClear {K : Type} (o : ClearOpts K) : IterOptions K :=
  ⟨o.gt, o.gte, o.lt, o.lte, o.reverse, true, true, o.limit, 0⟩

/-! Concrete stores and predicates used to exercise the theorems. -/

/-- The spec's example namespace content: keys `a`..`e`. -/
def exTbl : Table Char String :=
  [⟨"ns", 'a', "1"⟩, ⟨"ns", 'b', "2"⟩, ⟨"ns", 'c', "3"⟩, ⟨"ns", 'd', "4"⟩,
    ⟨"ns", 'e', "5"⟩]

/-- The spec's example predicate `{gte: b, lt: e}`. -/
def exOpts : IterOptions Char := { gte := some 'b', lt := some 'e' }

/-- The same predicate with `reverse: true`. -/
def exOptsR : IterOptions Char := { gte := some 'b', lt := some 'e', reverse := true }

/-- 120 keys for the paging scenario. -/
def bigTbl : Table Nat Nat := (List.range 120).map fun i => ⟨"ns", i, i⟩

/-- Unbounded-limit scan options for the paging scenario. -/
def bigOpts : IterOptions Nat := {}

/-- 60 matching keys for the page-size counterexample. -/
def cexTbl : Table Nat Nat := (List.range 60).map fun i => ⟨"ns", i, i⟩

/-- A finite caller limit larger than one page. -/
def cexOpts : IterOptions Nat := { limit := some 120 }

/-- The spec's clear example `{lt: m, limit: 2, reverse: false}`. -/
def clOpts : ClearOpts Char := { lt := some 'm', limit := some 2 }

/-- A bounded-limit predicate for the total-limit theorem. -/
def limOpts : IterOptions Char := { gte := some 'b', limit := some 2 }

/-- A table holding rows of two namespaces. -/
def mixTbl : Table Char String := [⟨"ns", 'a', "1"⟩, ⟨"other", 'z', "9"⟩]

/-- The spec's failing-batch example `[put(a,..), put(b,..), delete(a)]`. -/
def bOps : List (BatchOp Char String) := [.put 'a' "10", .put 'b' "20", .del 'a']

/-- A backend that rejects exactly the third operation of `bOps`. -/
def bFails : BatchOp Char String → Bool := fun op => decide (op = .del 'a')

/-- A backend whose every page fetch reports a driver error. -/
def errFetch : Nat → Except String (Table Char String) := fun _ => .error "boom"

/-! Helper lemmas. -/

theorem rowMatches_ns {K V : Type} [LinearOrder K] {ns : String}
    {gtO gteO ltO lteO : Option K} {r : Row K V}
    (h : rowMatches ns gtO gteO ltO lteO r = true) : r.ns = ns := by
  simp only [rowMatches, Bool.and_eq_true, decide_eq_true_eq] at h
  exact h.1.1

theorem mem_orderedMatches {K V : Type} [LinearOrder K] {tbl : Table K V}
    {ns : String} {gtO gteO ltO lteO : Option K} {rev : Bool} {r : Row K V} :
    r ∈ orderedMatches tbl ns gtO gteO ltO lteO rev ↔
      r ∈ tbl ∧ rowMatches ns gtO gteO ltO lteO r = true := by
  unfold orderedMatches sortRows
  cases rev <;> simp [List.mem_insertionSort, List.mem_filter]

theorem perm_orderedMatches {K V : Type} [LinearOrder K] (tbl : Table K V)
    (ns : String) (gtO gteO ltO lteO : Option K) (rev : Bool) :
    (orderedMatches tbl ns gtO gteO ltO lteO rev).Perm
      (tbl.filter (rowMatches ns gtO gteO ltO lteO)) := by
  unfold orderedMatches sortRows
  cases rev <;> exact List.perm_insertionSort _ _

theorem length_orderedMatches_le {K V : Type} [LinearOrder K] (tbl : Table K V)
    (ns : String) (gtO gteO ltO lteO : Option K) (rev : Bool) :
    (orderedMatches tbl ns gtO gteO ltO lteO rev).length ≤ tbl.length :=
  le_trans (le_of_eq (perm_orderedMatches tbl ns gtO gteO ltO lteO rev).length_eq)
    (List.length_filter_le _ _)

theorem sorted_keys_orderedMatches {K V : Type} [LinearOrder K] (tbl : Table K V)
    (ns : String) (gtO gteO ltO lteO : Option K) (rev : Bool) :
    if rev then
      ((orderedMatches tbl ns gtO gteO ltO lteO rev).map fun r => r.key).Sorted (· ≥ ·)
    else
      ((orderedMatches tbl ns gtO gteO ltO lteO rev).map fun r => r.key).Sorted (· ≤ ·) := by
  unfold orderedMatches sortRows
  cases rev
  · simp only [if_neg, Bool.false_eq_true, not_false_iff, if_false]
    exact List.Pairwise.map _ (fun a b hab => hab)
      (List.sorted_insertionSort rowLeAsc _)
  · simp only [if_pos]
    exact List.Pairwise.map _ (fun a b hab => hab)
      (List.sorted_insertionSort rowLeDesc _)

/-- `PRIMARY KEY (namespace, key)`: two rows of a well-formed table with the
same namespace and key are the same row. -/
theorem wf_pair_inj {K V : Type} {tbl : Table K V} (hwf : wfTable tbl)
    {r1 r2 : Row K V} (h1 : r1 ∈ tbl) (h2 : r2 ∈ tbl) (hns : r1.ns = r2.ns)
    (hk : r1.key = r2.key) : r1 = r2 :=
  List.inj_on_of_nodup_map hwf h1 h2 (by rw [hns, hk])

theorem nodup_keys_orderedMatches {K V : Type} [LinearOrder K] {tbl : Table K V}
    (hwf : wfTable tbl) (ns : String) (gtO gteO ltO lteO : Option K) (rev : Bool) :
    ((orderedMatches tbl ns gtO gteO ltO lteO rev).map fun r => r.key).Nodup := by
  rw [List.Nodup, List.pairwise_map]
  have hpairs : tbl.Pairwise fun a b : Row K V => (a.ns, a.key) ≠ (b.ns, b.key) :=
    List.pairwise_map.mp hwf
  have hfilter := hpairs.filter (rowMatches ns gtO gteO ltO lteO)
  have hperm : List.Pairwise (fun a b : Row K V => (a.ns, a.key) ≠ (b.ns, b.key))
      (orderedMatches tbl ns gtO gteO ltO lteO rev) := by
    refine ((perm_orderedMatches tbl ns gtO gteO ltO lteO rev).pairwise_iff
      ?_).mpr hfilter
    intro x y h h'
    exact h h'.symm
  refine List.Pairwise.imp_of_mem ?_ hperm
  intro a b ha hb hab
  have hans : a.ns = ns := rowMatches_ns (mem_orderedMatches.mp ha).2
  have hbns : b.ns = ns := rowMatches_ns (mem_orderedMatches.mp hb).2
  intro hkey
  exact hab (by rw [hans, hbns, hkey])

theorem driveEntries_succ_some {K V : Type}
    {fetch : Nat → Except String (Table K V)} {o : IterOptions K}
    {s s' : IterState K V} {e : Entry K V} {b : Bool}
    (h : nextStep fetch o s = (s', some e, b)) (fuel : Nat) :
    driveEntries fetch o (fuel + 1) s = e :: driveEntries fetch o fuel s' := by
  simp [driveEntries, driveCount, h]

theorem driveEntries_succ_none {K V : Type}
    {fetch : Nat → Except String (Table K V)} {o : IterOptions K}
    {s s' : IterState K V} {b : Bool}
    (h : nextStep fetch o s = (s', none, b)) (fuel : Nat) :
    driveEntries fetch o (fuel + 1) s = [] := by
  simp [driveEntries, driveCount, h]

/-- Draining the buffered entries: while the buffer is nonempty, each
`_next` call pops its head without touching the backend. -/
theorem drive_drain {K V : Type} (fetch : Nat → Except String (Table K V))
    (o : IterOptions K) (buf : List (Entry K V)) :
    ∀ (off fuel : Nat), buf.length ≤ fuel →
      driveEntries fetch o fuel ⟨off, buf, false⟩ =
        buf ++ driveEntries fetch o (fuel - buf.length) ⟨off, [], false⟩ := by
  induction buf with
  | nil => intro off fuel _; simp
  | cons e rest ih =>
    intro off fuel h
    have hlen : rest.length + 1 ≤ fuel := by simpa using h
    obtain ⟨fuel', rfl⟩ : ∃ f, fuel = f + 1 := ⟨fuel - 1, by omega⟩
    have hstep : nextStep fetch o ⟨off, e :: rest, false⟩ =
        (⟨off, rest, false⟩, some e, false) := rfl
    rw [driveEntries_succ_some hstep, ih off fuel' (by omega)]
    simp [Nat.succ_sub_succ]

/-- The heart of the exactly-once pagination argument: over a fixed table,
driving `_next` from an empty buffer at offset `off` delivers exactly the
suffix of the ordered matching rows from `off` on — every page is a
`take`/`drop` window of the same sorted list, the offset advances by the
page size, and the first empty page terminates the scan. -/
theorem drive_scan_eq {K V : Type} [LinearOrder K] (tbl : Table K V)
    (ns : String) (o : IterOptions K) (hP : 1 ≤ resultLimit o.limit) :
    ∀ n off fuel,
      (orderedMatches tbl ns o.gt o.gte o.lt o.lte o.reverse).length - off ≤ n →
      2 * n + 1 ≤ fuel →
      driveEntries (tableFetch tbl ns o) o fuel ⟨off, [], false⟩ =
        ((orderedMatches tbl ns o.gt o.gte o.lt o.lte o.reverse).drop off).map
          (entryOf o) := by
  intro n
  induction n using Nat.strong_induction_on with
  | _ n ih =>
    intro off fuel hn hfuel
    set L := orderedMatches tbl ns o.gt o.gte o.lt o.lte o.reverse with hLdef
    obtain ⟨fuel', rfl⟩ : ∃ f, fuel = f + 1 := ⟨fuel - 1, by omega⟩
    rcases hdrop : L.drop off with _ | ⟨x, xs⟩
    · have hpage : pageQuery tbl ns o off = [] := by
        simp [pageQuery, ← hLdef, hdrop]
      have hstep : nextStep (tableFetch tbl ns o) o ⟨off, [], false⟩ =
          (⟨off, [], true⟩, none, true) := by
        simp [nextStep, tableFetch, hpage]
      rw [driveEntries_succ_none hstep]
      simp
    · obtain ⟨p, hp⟩ : ∃ p, resultLimit o.limit = p + 1 :=
        ⟨resultLimit o.limit - 1, by omega⟩
      have hpage : pageQuery tbl ns o off = x :: xs.take p := by
        simp [pageQuery, ← hLdef, hdrop, hp]
      have hstep : nextStep (tableFetch tbl ns o) o ⟨off, [], false⟩ =
          (⟨off + resultLimit o.limit, (xs.take p).map (entryOf o), false⟩,
            some (entryOf o x), true) := by
        simp [nextStep, tableFetch, hpage, hp]
      rw [driveEntries_succ_some hstep]
      have hxs : L.length - off = xs.length + 1 := by
        have hld := congrArg List.length hdrop
        simp only [List.length_drop, List.length_cons] at hld
        omega
      have hblen : ((xs.take p).map (entryOf o)).length = min p xs.length := by
        simp
      have hbfuel : ((xs.take p).map (entryOf o)).length ≤ fuel' := by
        rw [hblen]; omega
      rw [drive_drain (tableFetch tbl ns o) o _ (off + resultLimit o.limit)
        fuel' hbfuel]
      have hrec := ih (n - 1 - min p xs.length) (by omega)
        (off + resultLimit o.limit) (fuel' - min p xs.length)
        (by omega) (by omega)
      rw [hblen, hrec]
      have hdd : L.drop (off + resultLimit o.limit) = xs.drop p := by
        rw [hp, ← List.drop_drop, hdrop]
        simp [List.drop_succ_cons]
      rw [hdd]
      simp only [List.map_cons, List.cons.injEq, true_and]
      rw [← List.map_append, List.take_append_drop]

/-- With an unbounded caller limit the public `next` never stops on the
count, so it coincides with driving `_next` directly. -/
theorem publicDrive_limit_none {K V : Type}
    (fetch : Nat → Except String (Table K V)) (o : IterOptions K)
    (hlim : o.limit = none) :
    ∀ (fuel cnt : Nat) (s : IterState K V),
      publicDrive fetch o fuel cnt s = driveEntries fetch o fuel s := by
  intro fuel
  induction fuel with
  | zero => intro cnt s; rfl
  | succ f ih =>
    intro cnt s
    have hallow : limitAllows o.limit cnt = true := by simp [limitAllows, hlim]
    rcases h : nextStep fetch o s with ⟨s', e?, b⟩
    rcases e? with _ | e
    · rw [driveEntries_succ_none h]
      simp [publicDrive, hallow, h]
    · rw [driveEntries_succ_some h]
      simp [publicDrive, hallow, h, ih]

/-- With a finite non-negative caller limit the public `next` delivers the
prefix of what driving `_next` alone would deliver, truncated to the
remaining allowance. -/
theorem publicDrive_limit_some {K V : Type}
    (fetch : Nat → Except String (Table K V)) (o : IterOptions K) (l : Int)
    (hlim : o.limit = some l) :
    ∀ (fuel cnt : Nat) (s : IterState K V),
      publicDrive fetch o fuel cnt s =
        (driveEntries fetch o fuel s).take (l.toNat - cnt) := by
  intro fuel
  induction fuel with
  | zero => intro cnt s; simp [publicDrive, driveEntries, driveCount]
  | succ f ih =>
    intro cnt s
    by_cases hallow : limitAllows o.limit cnt = true
    · have hcnt : (cnt : Int) < l := by
        simpa [limitAllows, hlim] using hallow
      have htn : l.toNat - cnt = (l.toNat - (cnt + 1)) + 1 := by omega
      rcases h : nextStep fetch o s with ⟨s', e?, b⟩
      rcases e? with _ | e
      · rw [driveEntries_succ_none h]
        simp [publicDrive, hallow, h]
      · rw [driveEntries_succ_some h, htn]
        simp only [publicDrive, hallow, if_true, h, List.take_succ_cons]
        rw [ih (cnt + 1) s']
    · have hcnt : l ≤ (cnt : Int) := by
        by_contra hc
        exact hallow (by simp [limitAllows, hlim]; omega)
      have htn : l.toNat - cnt = 0 := by omega
      simp [publicDrive, hallow, htn]

theorem getQ_eq_of_filter_cons {K V : Type} [DecidableEq K] {tbl : Table K V}
    {ns : String} {k : K} {r : Row K V} {rest : List (Row K V)}
    (h : tbl.filter (fun r => decide (r.ns = ns) && decide (r.key = k)) = r :: rest) :
    getQ tbl ns k = .ok r.value := by
  unfold getQ
  rw [h]

theorem getQ_eq_of_filter_nil {K V : Type} [DecidableEq K] {tbl : Table K V}
    {ns : String} {k : K}
    (h : tbl.filter (fun r => decide (r.ns = ns) && decide (r.key = k)) = []) :
    getQ tbl ns k = .error (.notFound "Key was not found") := by
  unfold getQ
  rw [h]

/-- The row rewritten by the upsert's `DO UPDATE SET value` keeps its
namespace and key. -/
theorem putUpdate_ns_key {K V : Type} [DecidableEq K] (ns : String) (k : K)
    (v : V) (r : Row K V) :
    ((if r.ns = ns ∧ r.key = k then { r with value := v } else r) : Row K V).ns = r.ns ∧
    ((if r.ns = ns ∧ r.key = k then { r with value := v } else r) : Row K V).key = r.key := by
  split <;> simp

/-- Filtering the upsert's result on the written `(namespace, key)` pair. -/
theorem filter_pair_putQ {K V : Type} [DecidableEq K] (tbl : Table K V)
    (ns : String) (k : K) (v : V) :
    (putQ tbl ns k v).filter (fun r => decide (r.ns = ns) && decide (r.key = k)) =
      if tbl.any (fun r => decide (r.ns = ns) && decide (r.key = k)) then
        (tbl.filter (fun r => decide (r.ns = ns) && decide (r.key = k))).map
          (fun r => if r.ns = ns ∧ r.key = k then { r with value := v } else r)
      else [⟨ns, k, v⟩] := by
  unfold putQ
  by_cases h : tbl.any (fun r => decide (r.ns = ns) && decide (r.key = k))
  · rw [if_pos h, if_pos h, List.filter_map]
    congr 1
    refine List.filter_congr ?_
    intro r _
    obtain ⟨h1, h2⟩ := putUpdate_ns_key ns k v r
    simp only [Function.comp_apply, h1, h2]
  · rw [if_neg h, if_neg h, List.filter_append]
    have h0 : tbl.filter (fun r => decide (r.ns = ns) && decide (r.key = k)) = [] := by
      rw [List.filter_eq_nil_iff]
      intro r hr hpr
      exact h (List.any_eq_true.mpr ⟨r, hr, hpr⟩)
    rw [h0]
    simp

/-- `put` followed by `get` of the same key returns the written value. -/
theorem getQ_putQ_self {K V : Type} [DecidableEq K] (tbl : Table K V)
    (ns : String) (k : K) (v : V) :
    getQ (putQ tbl ns k v) ns k = .ok v := by
  have hf := filter_pair_putQ tbl ns k v
  by_cases h : tbl.any (fun r => decide (r.ns = ns) && decide (r.key = k))
  · rw [if_pos h] at hf
    obtain ⟨r0, hr0, hpr0⟩ := List.any_eq_true.mp h
    rcases hfl : tbl.filter (fun r => decide (r.ns = ns) && decide (r.key = k))
      with _ | ⟨r1, rest⟩
    · exact absurd (List.mem_filter.mpr ⟨hr0, hpr0⟩) (by rw [hfl]; simp)
    · rw [hfl, List.map_cons] at hf
      rw [getQ_eq_of_filter_cons hf]
      have hp1 : r1.ns = ns ∧ r1.key = k := by
        have := (List.mem_filter.mp (by rw [hfl]; exact List.mem_cons_self r1 rest)).2
        simpa [Bool.and_eq_true, decide_eq_true_eq] using this
      simp [hp1]
  · rw [if_neg h] at hf
    rw [getQ_eq_of_filter_cons hf]

/-- A list without duplicates whose every element is `a` has at most one
element. -/
theorem length_le_one_of_nodup_const {α : Type _} {l : List α} {a : α}
    (hnd : l.Nodup) (hc : ∀ x ∈ l, x = a) : l.length ≤ 1 := by
  match l with
  | [] => simp
  | [x] => simp
  | x :: y :: rest =>
    exfalso
    have hx := hc x (by simp)
    have hy := hc y (by simp)
    have : x ∈ y :: rest := by rw [hx, ← hy]; simp
    exact (List.nodup_cons.mp hnd).1 this

/-- In a well-formed table at most one row carries a given
`(namespace, key)` pair. -/
theorem countP_pair_le_one {K V : Type} [DecidableEq K] {tbl : Table K V}
    (hwf : wfTable tbl) (ns : String) (k : K) :
    tbl.countP (fun r => decide (r.ns = ns) && decide (r.key = k)) ≤ 1 := by
  rw [List.countP_eq_length_filter]
  set fl := tbl.filter (fun r => decide (r.ns = ns) && decide (r.key = k)) with hfl
  have hnd : (fl.map fun r => (r.ns, r.key)).Nodup :=
    hwf.sublist ((List.filter_sublist tbl).map _)
  have hconst : ∀ x ∈ fl.map fun r => (r.ns, r.key), x = (ns, k) := by
    intro x hx
    obtain ⟨r, hr, rfl⟩ := List.mem_map.mp hx
    have := (List.mem_filter.mp hr).2
    simp only [Bool.and_eq_true, decide_eq_true_eq] at this
    rw [this.1, this.2]
  have := length_le_one_of_nodup_const hnd hconst
  simpa using this

/-- The upsert leaves exactly one row with the written pair. -/
theorem countP_putQ {K V : Type} [DecidableEq K] {tbl : Table K V}
    (hwf : wfTable tbl) (ns : String) (k : K) (v : V) :
    (putQ tbl ns k v).countP
      (fun r => decide (r.ns = ns) && decide (r.key = k)) = 1 := by
  rw [List.countP_eq_length_filter, filter_pair_putQ]
  by_cases h : tbl.any (fun r => decide (r.ns = ns) && decide (r.key = k))
  · rw [if_pos h, List.length_map, ← List.countP_eq_length_filter]
    have hle := countP_pair_le_one hwf ns k
    have hpos : 0 < tbl.countP (fun r => decide (r.ns = ns) && decide (r.key = k)) :=
      List.countP_pos_iff.mpr (List.any_eq_true.mp h)
    omega
  · rw [if_neg h]
    rfl

/-- The upsert preserves the primary-key invariant. -/
theorem wfTable_putQ {K V : Type} [DecidableEq K] {tbl : Table K V}
    (hwf : wfTable tbl) (ns : String) (k : K) (v : V) :
    wfTable (putQ tbl ns k v) := by
  unfold putQ wfTable
  by_cases h : tbl.any (fun r => decide (r.ns = ns) && decide (r.key = k))
  · rw [if_pos h, List.map_map]
    have : ∀ r ∈ tbl,
        ((fun r : Row K V => (r.ns, r.key)) ∘
          fun r => if r.ns = ns ∧ r.key = k then { r with value := v } else r) r =
        (fun r : Row K V => (r.ns, r.key)) r := by
      intro r _
      obtain ⟨h1, h2⟩ := putUpdate_ns_key ns k v r
      simp only [Function.comp_apply, h1, h2]
    rw [List.map_congr_left this]
    exact hwf
  · rw [if_neg h, List.map_append]
    rw [List.nodup_append]
    refine ⟨hwf, by simp, ?_⟩
    intro x hx hx'
    simp only [List.map_cons, List.map_nil, List.mem_singleton] at hx'
    obtain ⟨r, hr, rfl⟩ := List.mem_map.mp hx
    have : (decide (r.ns = ns) && decide (r.key = k)) = true := by
      rw [Prod.mk.injEq] at hx'
      simp [hx'.1, hx'.2]
    exact h (List.any_eq_true.mpr ⟨r, hr, this⟩)

theorem runBatchOps_ok_of_no_fail {K V : Type} [DecidableEq K]
    (fails : BatchOp K V → Bool) (ns : String) :
    ∀ (ops : List (BatchOp K V)) (tbl : Table K V),
      (∀ op ∈ ops, fails op = false) →
      runBatchOps fails ns tbl ops = .ok (ops.foldl (applyOp ns) tbl) := by
  intro ops
  induction ops with
  | nil => intro tbl _; rfl
  | cons op rest ih =>
    intro tbl h
    have hop : fails op = false := h op (by simp)
    simp only [runBatchOps, hop, Bool.false_eq_true, if_false, List.foldl_cons]
    exact ih _ (fun o ho => h o (by simp [ho]))

theorem runBatchOps_error_of_fail {K V : Type} [DecidableEq K]
    (fails : BatchOp K V → Bool) (ns : String) :
    ∀ (ops : List (BatchOp K V)) (tbl : Table K V),
      (∃ op ∈ ops, fails op = true) →
      ∃ e, runBatchOps fails ns tbl ops = .error e := by
  intro ops
  induction ops with
  | nil => intro tbl h; simp at h
  | cons op rest ih =>
    intro tbl h
    by_cases hop : fails op = true
    · exact ⟨"batch operation failed", by simp [runBatchOps, hop]⟩
    · have hop' : fails op = false := by simpa using hop
      have hrest : ∃ o ∈ rest, fails o = true := by
        rcases h with ⟨o, ho, hf⟩
        rcases List.mem_cons.mp ho with rfl | ho'
        · exact absurd hf hop
        · exact ⟨o, ho', hf⟩
      simp only [runBatchOps, hop', Bool.false_eq_true, if_false]
      exact ih _ hrest

/-! Namespace-scoping helpers: rows of other namespaces pass through every
write path untouched, and every read path only surfaces rows of the
store's namespace. -/

theorem mem_putQ_of_ns_ne {K V : Type} [DecidableEq K] {tbl : Table K V}
    {ns : String} {k : K} {v : V} {r : Row K V} (hne : r.ns ≠ ns) :
    r ∈ putQ tbl ns k v ↔ r ∈ tbl := by
  unfold putQ
  by_cases h : tbl.any (fun r => decide (r.ns = ns) && decide (r.key = k))
  · rw [if_pos h]
    constructor
    · intro hr
      obtain ⟨a, ha, hfa⟩ := List.mem_map.mp hr
      by_cases hc : a.ns = ns ∧ a.key = k
      · rw [if_pos hc] at hfa
        exfalso
        apply hne
        rw [← hfa]
        exact hc.1
      · rw [if_neg hc] at hfa
        rw [← hfa]
        exact ha
    · intro hr
      refine List.mem_map.mpr ⟨r, hr, ?_⟩
      rw [if_neg (fun hc => hne hc.1)]
  · rw [if_neg h, List.mem_append]
    constructor
    · rintro (hr | hr)
      · exact hr
      · exfalso
        apply hne
        rw [List.mem_singleton] at hr
        rw [hr]
    · exact fun hr => Or.inl hr

theorem mem_delQ_of_ns_ne {K V : Type} [DecidableEq K] {tbl : Table K V}
    {ns : String} {k : K} {r : Row K V} (hne : r.ns ≠ ns) :
    r ∈ delQ tbl ns k ↔ r ∈ tbl := by
  unfold delQ
  rw [List.mem_filter]
  constructor
  · exact fun h => h.1
  · intro h
    refine ⟨h, ?_⟩
    simp [hne]

theorem mem_runBatchOps_of_ns_ne {K V : Type} [DecidableEq K]
    (fails : BatchOp K V → Bool) (ns : String) {r : Row K V} (hne : r.ns ≠ ns) :
    ∀ (ops : List (BatchOp K V)) (tbl t : Table K V),
      runBatchOps fails ns tbl ops = .ok t → (r ∈ t ↔ r ∈ tbl) := by
  intro ops
  induction ops with
  | nil =>
    intro tbl t h
    rw [show t = tbl from by simpa [runBatchOps] using h.symm]
  | cons op rest ih =>
    intro tbl t h
    by_cases hop : fails op = true
    · simp [runBatchOps, hop] at h
    · have hop' : fails op = false := by simpa using hop
      simp only [runBatchOps, hop', Bool.false_eq_true, if_false] at h
      have hstep : r ∈ applyOp ns tbl op ↔ r ∈ tbl := by
        cases op with
        | put k v => exact mem_putQ_of_ns_ne hne
        | del k => exact mem_delQ_of_ns_ne hne
      exact (ih _ _ h).trans hstep

theorem mem_clearQ_of_ns_ne {K V : Type} [LinearOrder K] {tbl : Table K V}
    {ns : String} {o : ClearOpts K} {r : Row K V} (hne : r.ns ≠ ns) :
    r ∈ clearQ tbl ns o ↔ r ∈ tbl := by
  have hbm : rowMatches ns o.gt o.gte o.lt o.lte r = false := by
    unfold rowMatches
    simp [hne]
  unfold clearQ
  have hnv : ∀ l : Int, (r.ns, r.key) ∉
      ((orderedMatches tbl ns o.gt o.gte o.lt o.lte o.reverse).take l.toNat).map
        (fun a : Row K V => (a.ns, a.key)) := by
    intro l hmem
    obtain ⟨a, ha, hpa⟩ := List.mem_map.mp hmem
    have hans : a.ns = ns :=
      rowMatches_ns (mem_orderedMatches.mp (List.mem_of_mem_take ha)).2
    rw [Prod.mk.injEq] at hpa
    exact hne (hpa.1 ▸ hans)
  split
  · rename_i l _
    by_cases h0 : (0 : Int) ≤ l
    · rw [if_pos h0]
      simp only [List.mem_filter]
      simp only [Bool.not_eq_true', decide_eq_false_iff_not, and_iff_left_iff_imp]
      intro _
      exact hnv l
    · rw [if_neg h0]
      simp only [List.mem_filter]
      simp [hbm]
  · simp only [List.mem_filter]
    simp [hbm]

theorem pageQuery_ns {K V : Type} [LinearOrder K] {tbl : Table K V}
    {ns : String} {o : IterOptions K} {off : Nat} :
    ∀ r ∈ pageQuery tbl ns o off, r.ns = ns := by
  intro r hr
  unfold pageQuery at hr
  have := List.mem_of_mem_drop (List.mem_of_mem_take hr)
  exact rowMatches_ns (mem_orderedMatches.mp this).2

theorem getQ_ok_mem {K V : Type} [DecidableEq K] {tbl : Table K V}
    {ns : String} {k : K} {v : V} (h : getQ tbl ns k = .ok v) :
    ∃ r ∈ tbl, r.ns = ns ∧ r.key = k ∧ r.value = v := by
  unfold getQ at h
  rcases hfl : tbl.filter (fun r => decide (r.ns = ns) && decide (r.key = k))
    with _ | ⟨r0, rest⟩
  · rw [hfl] at h
    exact absurd h (by simp)
  · rw [hfl] at h
    have hr0 : r0 ∈ tbl ∧ (decide (r0.ns = ns) && decide (r0.key = k)) = true :=
      List.mem_filter.mp (by rw [hfl]; exact List.mem_cons_self r0 rest)
    have hp := hr0.2
    simp only [Bool.and_eq_true, decide_eq_true_eq] at hp
    refine ⟨r0, hr0.1, hp.1, hp.2, ?_⟩
    simpa using h

theorem getManyQ_some_mem {K V : Type} [DecidableEq K] {tbl : Table K V}
    {ns : String} {ks : List K} :
    ∀ vO ∈ getManyQ tbl ns ks, ∀ v, vO = some v →
      ∃ r ∈ tbl, r.ns = ns ∧ r.value = v := by
  intro vO hvO v hv
  unfold getManyQ at hvO
  obtain ⟨k, _, hmap⟩ := List.mem_map.mp hvO
  rw [hv] at hmap
  obtain ⟨a, hfind, hval⟩ := Option.map_eq_some'.mp hmap
  have ha : a ∈ (tbl.filter
      (fun r => decide (r.ns = ns) && decide (r.key ∈ ks))).reverse :=
    List.mem_of_find?_eq_some hfind
  rw [List.mem_reverse] at ha
  have hm := List.mem_filter.mp ha
  have hp := hm.2
  simp only [Bool.and_eq_true, decide_eq_true_eq] at hp
  exact ⟨a, hm.1, hp.1, hval⟩

/-! Claim theorems. -/

/-- C1: over a fixed table state, a full `iterate` scan (unbounded limit,
offset 0) delivers exactly the rows of the store's namespace satisfying
the translated bounds (`gt` → `>`, `gte` → `>=`, `lt` → `<`,
`lte` → `<=`), each matching row exactly once, ordered by strictly
ascending key, or strictly descending when `reverse` is set, even though
the backend is queried in bounded pages. -/
theorem iterate_range_scan {K V : Type} [LinearOrder K] (tbl : Table K V)
    (ns : String) (o : IterOptions K) (hwf : wfTable tbl)
    (hlim : o.limit = none) (hoff : o.offset = 0) (fuel : Nat)
    (hfuel : 2 * tbl.length + 1 ≤ fuel) :
    publicDrive (tableFetch tbl ns o) o fuel 0 (initState o) =
      (orderedMatches tbl ns o.gt o.gte o.lt o.lte o.reverse).map (entryOf o)
    ∧ ((orderedMatches tbl ns o.gt o.gte o.lt o.lte o.reverse).map
        fun r => r.key).Perm
        ((tbl.filter (rowMatches ns o.gt o.gte o.lt o.lte)).map fun r => r.key)
    ∧ (o.reverse = false →
        ((orderedMatches tbl ns o.gt o.gte o.lt o.lte o.reverse).map
          fun r => r.key).Sorted (· < ·))
    ∧ (o.reverse = true →
        ((orderedMatches tbl ns o.gt o.gte o.lt o.lte o.reverse).map
          fun r => r.key).Sorted (· > ·)) := by
  have hP : 1 ≤ resultLimit o.limit := by rw [hlim]; decide
  refine ⟨?_, ?_, ?_, ?_⟩
  · rw [publicDrive_limit_none _ _ hlim]
    have hinit : initState o = (⟨0, [], false⟩ : IterState K V) := by
      unfold initState
      rw [hoff]
    rw [hinit]
    have hlen := length_orderedMatches_le tbl ns o.gt o.gte o.lt o.lte o.reverse
    have := drive_scan_eq tbl ns o hP tbl.length 0 fuel (by omega) (by omega)
    simpa using this
  · exact (perm_orderedMatches tbl ns o.gt o.gte o.lt o.lte o.reverse).map _
  · intro hrev
    rw [hrev]
    have hs := sorted_keys_orderedMatches tbl ns o.gt o.gte o.lt o.lte false
    simp only [Bool.false_eq_true, if_false] at hs
    exact hs.lt_of_le (nodup_keys_orderedMatches hwf ns o.gt o.gte o.lt o.lte false)
  · intro hrev
    rw [hrev]
    have hs := sorted_keys_orderedMatches tbl ns o.gt o.gte o.lt o.lte true
    simp only [if_true] at hs
    exact hs.gt_of_ge (nodup_keys_orderedMatches hwf ns o.gt o.gte o.lt o.lte true)

/-- C5: with a finite non-negative caller limit `l`, a complete scan
through the public `next` delivers at most `l` entries in total, whatever
the backend holds and however many rows match. -/
theorem iterate_limit_total {K V : Type}
    (fetch : Nat → Except String (Table K V)) (o : IterOptions K) (l : Int)
    (hlim : o.limit = some l) (hl : 0 ≤ l) (fuel : Nat) (s : IterState K V) :
    ((publicDrive fetch o fuel 0 s).length : Int) ≤ l := by
  rw [publicDrive_limit_some fetch o l hlim fuel 0 s]
  have h1 := List.length_take_le (l.toNat - 0) (driveEntries fetch o fuel s)
  omega

/-- C8: a backend error inside a page fetch is swallowed into
termination — the iterator flips its terminal flag and signals
end-of-sequence, delivering no error (the callback's error argument is
`undefined` on every path of `_next`); and once terminal, every
subsequent `_next` answers end-of-sequence immediately without issuing
any backend query. -/
theorem iterator_swallows_errors {K V : Type}
    (fetch : Nat → Except String (Table K V)) (o : IterOptions K)
    (s : IterState K V) (err : String) :
    (s.finished = false → s.results = [] → fetch s.offset = .error err →
      nextStep fetch o s = ({ s with finished := true }, none, true))
    ∧ (s.finished = true → nextStep fetch o s = (s, none, false))
    ∧ (s.finished = true → ∀ fuel, driveCount fetch o fuel s = ([], 0, 0)) := by
  refine ⟨?_, ?_, ?_⟩
  · intro hfin hres hf
    simp [nextStep, hfin, hres, hf]
  · intro hfin
    simp [nextStep, hfin]
  · intro hfin fuel
    cases fuel with
    | zero => rfl
    | succ f =>
      have hstep : nextStep fetch o s = (s, none, false) := by
        simp [nextStep, hfin]
      simp [driveCount, hstep]

set_option maxRecDepth 10000 in
/-- C4 counterexample: with the finite caller limit 120 — larger than the
default page size of 50 — over 60 matching rows, the single page query
returns 60 rows: the effective page size is the caller's limit itself,
not the claimed cap of 50. -/
theorem iterate_page_cap_cex :
    resultLimit cexOpts.limit = 120 ∧
    (pageQuery cexTbl "ns" cexOpts 0).length = 60 ∧
    ¬((pageQuery cexTbl "ns" cexOpts 0).length ≤ DEFAULT_LIMIT) := by
  decide

set_option maxRecDepth 10000 in
/-- C4 (amended): each internal page query returns at most the effective
page size many rows, where the effective page size is the caller's limit
whenever it is finite and non-negative — even when larger than one
default page — and the default page size 50 otherwise (unbounded or
negative); after a successful row-returning fetch the offset advances by
exactly the page size; and scanning 120 matching keys with an unbounded
limit delivers all 120 keys exactly once, in order, with 3 row-returning
page fetches (a 4th, empty fetch terminates the scan). -/
theorem iterate_page_size_amended {K V : Type} [LinearOrder K]
    (tbl : Table K V) (ns : String) (o : IterOptions K) (off : Nat)
    (fetch : Nat → Except String (Table K V)) (s : IterState K V) :
    (pageQuery tbl ns o off).length ≤ resultLimit o.limit
    ∧ (o.limit = none → resultLimit o.limit = DEFAULT_LIMIT)
    ∧ (∀ l : Int, o.limit = some l → 0 ≤ l → resultLimit o.limit = l.toNat)
    ∧ (∀ (rows : Table K V) (r : Row K V) (rs : List (Row K V)),
        s.finished = false → s.results = [] → fetch s.offset = .ok rows →
        rows = r :: rs →
        (nextStep fetch o s).1.offset = s.offset + resultLimit o.limit)
    ∧ driveCount (tableFetch bigTbl "ns" bigOpts) bigOpts 130 (initState bigOpts) =
        ((List.range 120).map fun i => ((some i : Option Nat), (some i : Option Nat)),
          4, 3) := by
  refine ⟨?_, ?_, ?_, ?_, ?_⟩
  · exact List.length_take_le _ _
  · intro h
    rw [h]
    rfl
  · intro l h hl
    rw [h]
    simp [resultLimit, hl]
  · intro rows r rs hfin hres hf hrows
    subst hrows
    simp [nextStep, hfin, hres, hf]
  · decide

/-- C3: with a finite non-negative limit `l`, `clear` deletes exactly the
first `l` matching rows in scan order — precisely the set of rows whose
entries the iterator over the same predicate (same bounds, direction and
limit) delivers — not an arbitrary `l` matching rows; with an unbounded
limit it deletes every matching row of the namespace. -/
theorem clear_scan_order {K V : Type} [LinearOrder K] [DecidableEq V]
    (tbl : Table K V) (ns : String) (o : ClearOpts K) (hwf : wfTable tbl) :
    (∀ l : Int, o.limit = some l → 0 ≤ l →
      clearQ tbl ns o = tbl.filter (fun r =>
        !(decide (r ∈ (orderedMatches tbl ns o.gt o.gte o.lt o.lte
          o.reverse).take l.toNat))))
    ∧ (∀ l : Int, o.limit = some l → 0 ≤ l → ∀ fuel,
        2 * tbl.length + 1 ≤ fuel →
        publicDrive (tableFetch tbl ns (iterOptsOfClear o)) (iterOptsOfClear o)
            fuel 0 (initState (iterOptsOfClear o)) =
          ((orderedMatches tbl ns o.gt o.gte o.lt o.lte o.reverse).take
            l.toNat).map (entryOf (iterOptsOfClear o)))
    ∧ (o.limit = none → ∀ r : Row K V,
        r ∈ clearQ tbl ns o ↔
          r ∈ tbl ∧ rowMatches ns o.gt o.gte o.lt o.lte r = false) := by
  refine ⟨?_, ?_, ?_⟩
  · intro l hl h0
    simp only [clearQ, hl]
    rw [if_pos h0]
    refine List.filter_congr ?_
    intro r hr
    congr 1
    rw [decide_eq_decide]
    constructor
    · intro hmem
      obtain ⟨a, ha, hpa⟩ := List.mem_map.mp hmem
      have haL := List.mem_of_mem_take ha
      have hatbl := (mem_orderedMatches.mp haL).1
      rw [Prod.mk.injEq] at hpa
      rwa [wf_pair_inj hwf hatbl hr hpa.1 hpa.2] at ha
    · intro hmem
      exact List.mem_map_of_mem _ hmem
  · intro l hl h0 fuel hfuel
    have hlim : (iterOptsOfClear o).limit = some l := by
      simp [iterOptsOfClear, hl]
    rw [publicDrive_limit_some _ _ l hlim]
    by_cases hl0 : l.toNat = 0
    · rw [hl0]
      simp
    · have hP : 1 ≤ resultLimit (iterOptsOfClear o).limit := by
        rw [hlim]
        simp only [resultLimit, if_pos h0]
        omega
      have hinit : initState (iterOptsOfClear o) =
          (⟨0, [], false⟩ : IterState K V) := rfl
      rw [hinit]
      have hlen := length_orderedMatches_le tbl ns (iterOptsOfClear o).gt
        (iterOptsOfClear o).gte (iterOptsOfClear o).lt (iterOptsOfClear o).lte
        (iterOptsOfClear o).reverse
      have hd := drive_scan_eq tbl ns (iterOptsOfClear o) hP tbl.length 0 fuel
        (by omega) (by omega)
      rw [hd]
      simp only [List.drop_zero, iterOptsOfClear, Nat.sub_zero]
      rw [← List.map_take]
  · intro hnone r
    simp only [clearQ, hnone, List.mem_filter, Bool.not_eq_true',
      Bool.not_eq_eq_eq_not]
    constructor
    · intro h
      exact ⟨h.1, by simpa using h.2⟩
    · intro h
      exact ⟨h.1, by simpa using h.2⟩

/-- C2: a batch applies its operations in list order as one all-or-nothing
transaction scoped to the namespace: on success every effect is applied in
order; when any operation fails the transaction rolls back — the table is
unchanged — and the error is forwarded to the callback; the dedicated
connection is released on both paths; and an empty batch succeeds as a
no-op with zero backend round trips and no connection checkout. -/
theorem batch_atomic {K V : Type} [DecidableEq K]
    (fails : BatchOp K V → Bool) (ns : String) (tbl : Table K V)
    (ops : List (BatchOp K V)) :
    (ops = [] → batchQ fails ns tbl ops = ⟨tbl, none, 0, false, false⟩)
    ∧ ((∀ op ∈ ops, fails op = false) →
        (batchQ fails ns tbl ops).table = ops.foldl (applyOp ns) tbl ∧
        (batchQ fails ns tbl ops).error = none)
    ∧ ((∃ op ∈ ops, fails op = true) →
        (batchQ fails ns tbl ops).table = tbl ∧
        (batchQ fails ns tbl ops).error.isSome = true)
    ∧ (ops ≠ [] → (batchQ fails ns tbl ops).acquired = true ∧
        (batchQ fails ns tbl ops).released = true) := by
  refine ⟨?_, ?_, ?_, ?_⟩
  · intro h
    subst h
    rfl
  · intro h
    cases ops with
    | nil => exact ⟨rfl, rfl⟩
    | cons op rest =>
      have hok := runBatchOps_ok_of_no_fail fails ns (op :: rest) tbl h
      simp [batchQ, hok]
  · intro h
    cases ops with
    | nil => simp at h
    | cons op rest =>
      obtain ⟨e, he⟩ := runBatchOps_error_of_fail fails ns (op :: rest) tbl h
      simp [batchQ, he]
  · intro h
    cases ops with
    | nil => exact absurd rfl h
    | cons op rest =>
      cases hr : runBatchOps fails ns tbl (op :: rest) <;> simp [batchQ, hr]

/-- C6: `put` is an upsert: writing a key and reading it back returns the
written value; writing the same key twice leaves the second value and
exactly one row carrying the `(namespace, key)` pair — no duplicate
rows. -/
theorem put_is_upsert {K V : Type} [DecidableEq K] (tbl : Table K V)
    (ns : String) (k : K) (v1 v2 : V) (hwf : wfTable tbl) :
    getQ (putQ tbl ns k v1) ns k = .ok v1
    ∧ getQ (putQ (putQ tbl ns k v1) ns k v2) ns k = .ok v2
    ∧ (putQ (putQ tbl ns k v1) ns k v2).countP
        (fun r => decide (r.ns = ns) && decide (r.key = k)) = 1 :=
  ⟨getQ_putQ_self tbl ns k v1, getQ_putQ_self _ ns k v2,
    countP_putQ (wfTable_putQ hwf ns k v1) ns k v2⟩

/-- C7: `get` returns the stored value when a row matches
`(namespace, key)` and fails with the dedicated `LEVEL_NOT_FOUND` error
kind when no row matches — an error kind distinct from every backend
error, so a missing key is unambiguous. -/
theorem get_notfound_semantics {K V : Type} [DecidableEq K] (tbl : Table K V)
    (ns : String) (k : K) (hwf : wfTable tbl) :
    (∀ v : V, (⟨ns, k, v⟩ : Row K V) ∈ tbl → getQ tbl ns k = .ok v)
    ∧ ((∀ v : V, (⟨ns, k, v⟩ : Row K V) ∉ tbl) →
        getQ tbl ns k = .error (.notFound "Key was not found"))
    ∧ (∀ m m' : String, LevelErr.notFound m ≠ LevelErr.backend m') := by
  refine ⟨?_, ?_, ?_⟩
  · intro v hv
    rcases hfl : tbl.filter (fun r => decide (r.ns = ns) && decide (r.key = k))
      with _ | ⟨r0, rest⟩
    · exfalso
      have hm : (⟨ns, k, v⟩ : Row K V) ∈
          tbl.filter (fun r => decide (r.ns = ns) && decide (r.key = k)) :=
        List.mem_filter.mpr ⟨hv, by simp⟩
      rw [hfl] at hm
      simp at hm
    · rw [getQ_eq_of_filter_cons hfl]
      have hr0 := List.mem_filter.mp
        (show r0 ∈ tbl.filter (fun r => decide (r.ns = ns) && decide (r.key = k))
          from by rw [hfl]; exact List.mem_cons_self r0 rest)
      have hp := hr0.2
      simp only [Bool.and_eq_true, decide_eq_true_eq] at hp
      have heq : r0 = (⟨ns, k, v⟩ : Row K V) :=
        wf_pair_inj hwf hr0.1 hv (by simpa using hp.1) (by simpa using hp.2)
      rw [heq]
  · intro hv
    rcases hfl : tbl.filter (fun r => decide (r.ns = ns) && decide (r.key = k))
      with _ | ⟨r0, rest⟩
    · exact getQ_eq_of_filter_nil hfl
    · exfalso
      have hr0 := List.mem_filter.mp
        (show r0 ∈ tbl.filter (fun r => decide (r.ns = ns) && decide (r.key = k))
          from by rw [hfl]; exact List.mem_cons_self r0 rest)
      have hp := hr0.2
      simp only [Bool.and_eq_true, decide_eq_true_eq] at hp
      rcases r0 with ⟨rns, rkey, rval⟩
      apply hv rval
      obtain ⟨h1, h2⟩ := hp
      dsimp at h1 h2
      rw [← h1, ← h2]
      exact hr0.1
  · intro m m' h
    exact LevelErr.noConfusion h

/-- C9: `ensureTable` is idempotent with retry-on-failure: once the
in-process ready flag is set the call performs no backend query; a first
successful call runs both DDL statements, records the table and index as
existing, and sets the flag; any DDL failure is surfaced to the caller
and leaves the flag unset, and every call with the flag unset re-attempts
the DDL. -/
theorem ensure_table_semantics (s : SchemaState)
    (ddlTable ddlIndex : Except String Unit) :
    (s.ready = true → ensureTable s ddlTable ddlIndex = (s, .ok (), 0))
    ∧ (s.ready = false → ddlTable = .ok () → ddlIndex = .ok () →
        ensureTable s ddlTable ddlIndex = (⟨true, true, true⟩, .ok (), 2))
    ∧ (∀ e, s.ready = false → ddlTable = .error e →
        ensureTable s ddlTable ddlIndex = (s, .error e, 1) ∧
        (ensureTable s ddlTable ddlIndex).1.ready = false)
    ∧ (∀ e, s.ready = false → ddlTable = .ok () → ddlIndex = .error e →
        ensureTable s ddlTable ddlIndex =
          ({ s with tableExists := true }, .error e, 2) ∧
        (ensureTable s ddlTable ddlIndex).1.ready = false)
    ∧ (s.ready = false → 1 ≤ (ensureTable s ddlTable ddlIndex).2.2) := by
  refine ⟨?_, ?_, ?_, ?_, ?_⟩
  · intro h
    simp [ensureTable, h]
  · intro h h1 h2
    simp [ensureTable, h, h1, h2]
  · intro e h h1
    have heq : ensureTable s ddlTable ddlIndex = (s, .error e, 1) := by
      simp [ensureTable, h, h1]
    exact ⟨heq, by rw [heq]; exact h⟩
  · intro e h h1 h2
    have heq : ensureTable s ddlTable ddlIndex =
        ({ s with tableExists := true }, .error e, 2) := by
      simp [ensureTable, h, h1, h2]
    exact ⟨heq, by rw [heq]; exact h⟩
  · intro h
    cases ddlTable with
    | error e => simp [ensureTable, h]
    | ok u =>
      cases u
      cases ddlIndex with
      | error e => simp [ensureTable, h]
      | ok u' =>
        cases u'
        simp [ensureTable, h]

/-- C10: every operation filters by the store's namespace (fixed at
construction): values surfaced by `get`/`getMany` come from rows of that
namespace, rows surfaced to the iterator's pages are of that namespace,
and rows of any other namespace pass through `put`, `delete`, `batch` and
`clear` untouched. -/
theorem namespace_scoping {K V : Type} [LinearOrder K]
    (tbl : Table K V) (ns : String) (k : K) (v : V) (ks : List K)
    (fails : BatchOp K V → Bool) (ops : List (BatchOp K V))
    (co : ClearOpts K) (io : IterOptions K) (off : Nat) :
    (∀ w : V, getQ tbl ns k = .ok w →
      ∃ r ∈ tbl, r.ns = ns ∧ r.key = k ∧ r.value = w)
    ∧ (∀ vO ∈ getManyQ tbl ns ks, ∀ w : V, vO = some w →
        ∃ r ∈ tbl, r.ns = ns ∧ r.value = w)
    ∧ (∀ r : Row K V, r.ns ≠ ns → (r ∈ putQ tbl ns k v ↔ r ∈ tbl))
    ∧ (∀ r : Row K V, r.ns ≠ ns → (r ∈ delQ tbl ns k ↔ r ∈ tbl))
    ∧ (∀ r : Row K V, r.ns ≠ ns →
        (r ∈ (batchQ fails ns tbl ops).table ↔ r ∈ tbl))
    ∧ (∀ r : Row K V, r.ns ≠ ns → (r ∈ clearQ tbl ns co ↔ r ∈ tbl))
    ∧ (∀ r ∈ pageQuery tbl ns io off, r.ns = ns) := by
  refine ⟨?_, ?_, ?_, ?_, ?_, ?_, ?_⟩
  · intro w h
    exact getQ_ok_mem h
  · exact getManyQ_some_mem
  · intro r h
    exact mem_putQ_of_ns_ne h
  · intro r h
    exact mem_delQ_of_ns_ne h
  · intro r h
    cases ops with
    | nil => simp [batchQ]
    | cons op rest =>
      cases hr : runBatchOps fails ns tbl (op :: rest) with
      | error e => simp [batchQ, hr]
      | ok t =>
        simpa [batchQ, hr] using
          mem_runBatchOps_of_ns_ne fails ns h (op :: rest) tbl t hr
  · intro r h
    exact mem_clearQ_of_ns_ne h
  · exact pageQuery_ns

/-! Witnesses: the claim theorems applied at concrete inputs. -/

/-- C1 witness: over keys `a`..`e`, `iterate({gte: b, lt: e})` yields
exactly `[b, c, d]`, and `[d, c, b]` with `reverse`. -/
theorem iterate_range_scan_witness :
    publicDrive (tableFetch exTbl "ns" exOpts) exOpts 11 0 (initState exOpts) =
      [(some 'b', some "2"), (some 'c', some "3"), (some 'd', some "4")]
    ∧ publicDrive (tableFetch exTbl "ns" exOptsR) exOptsR 11 0 (initState exOptsR) =
      [(some 'd', some "4"), (some 'c', some "3"), (some 'b', some "2")] :=
  ⟨(iterate_range_scan exTbl "ns" exOpts (by decide) rfl rfl 11 (by decide)).1.trans
    (by decide),
   (iterate_range_scan exTbl "ns" exOptsR (by decide) rfl rfl 11 (by decide)).1.trans
    (by decide)⟩

/-- C2 witness: the batch `[put a, put b, del a]` whose third operation
fails leaves the table unchanged and reports an error with the connection
released; the empty batch is a zero-round-trip success. -/
theorem batch_atomic_witness :
    batchQ bFails "ns" exTbl [] = ⟨exTbl, none, 0, false, false⟩
    ∧ (batchQ bFails "ns" exTbl bOps).table = exTbl
    ∧ (batchQ bFails "ns" exTbl bOps).error.isSome = true
    ∧ (batchQ bFails "ns" exTbl bOps).released = true :=
  ⟨(batch_atomic bFails "ns" exTbl []).1 rfl,
   ((batch_atomic bFails "ns" exTbl bOps).2.2.1 (by decide)).1,
   ((batch_atomic bFails "ns" exTbl bOps).2.2.1 (by decide)).2,
   ((batch_atomic bFails "ns" exTbl bOps).2.2.2 (by decide)).2⟩

/-- C3 witness: `clear({lt: m, limit: 2})` over keys `a`..`e` removes
exactly the two lowest matching keys `a, b`, the very rows the iterator
over that predicate delivers. -/
theorem clear_scan_order_witness :
    clearQ exTbl "ns" clOpts =
      [⟨"ns", 'c', "3"⟩, ⟨"ns", 'd', "4"⟩, ⟨"ns", 'e', "5"⟩]
    ∧ publicDrive (tableFetch exTbl "ns" (iterOptsOfClear clOpts))
        (iterOptsOfClear clOpts) 11 0 (initState (iterOptsOfClear clOpts)) =
      [(some 'a', some "1"), (some 'b', some "2")] :=
  ⟨((clear_scan_order exTbl "ns" clOpts (by decide)).1 2 rfl (by decide)).trans
    (by decide),
   ((clear_scan_order exTbl "ns" clOpts (by decide)).2.1 2 rfl (by decide) 11
     (by decide)).trans (by decide)⟩

/-- C4 witness for the amended claim: the 60-row page stays within its
(limit-sized) page, the unbounded limit maps to the default page size,
the finite limit 120 is used as-is, and the 120-key scan delivers all
keys in order with 3 row-returning fetches out of 4. -/
theorem iterate_page_size_amended_witness :
    (pageQuery cexTbl "ns" cexOpts 0).length ≤ resultLimit cexOpts.limit
    ∧ resultLimit bigOpts.limit = DEFAULT_LIMIT
    ∧ resultLimit cexOpts.limit = (120 : Int).toNat
    ∧ driveCount (tableFetch bigTbl "ns" bigOpts) bigOpts 130 (initState bigOpts) =
        ((List.range 120).map fun i => ((some i : Option Nat), (some i : Option Nat)),
          4, 3) :=
  ⟨(iterate_page_size_amended cexTbl "ns" cexOpts 0
      (tableFetch cexTbl "ns" cexOpts) (initState cexOpts)).1,
   (iterate_page_size_amended bigTbl "ns" bigOpts 0
      (tableFetch bigTbl "ns" bigOpts) (initState bigOpts)).2.1 rfl,
   (iterate_page_size_amended cexTbl "ns" cexOpts 0
      (tableFetch cexTbl "ns" cexOpts) (initState cexOpts)).2.2.1 120 rfl
      (by decide),
   (iterate_page_size_amended bigTbl "ns" bigOpts 0
      (tableFetch bigTbl "ns" bigOpts) (initState bigOpts)).2.2.2.2⟩

/-- C5 witness: with limit 2 over five matching keys, the public scan
delivers at most two entries. -/
theorem iterate_limit_total_witness :
    ((publicDrive (tableFetch exTbl "ns" limOpts) limOpts 11 0
      (initState limOpts)).length : Int) ≤ 2 :=
  iterate_limit_total (tableFetch exTbl "ns" limOpts) limOpts 2 rfl (by decide)
    11 (initState limOpts)

/-- C6 witness: `put(k, v1); put(k, v2); get(k)` returns `v2` and the row
count for `(ns, k)` stays exactly 1. -/
theorem put_is_upsert_witness :
    getQ (putQ exTbl "ns" 'k' "v1") "ns" 'k' = .ok "v1"
    ∧ getQ (putQ (putQ exTbl "ns" 'k' "v1") "ns" 'k' "v2") "ns" 'k' = .ok "v2"
    ∧ (putQ (putQ exTbl "ns" 'k' "v1") "ns" 'k' "v2").countP
        (fun r => decide (r.ns = "ns") && decide (r.key = 'k')) = 1 :=
  put_is_upsert exTbl "ns" 'k' "v1" "v2" (by decide)

/-- C7 witness: an existing key returns its value, a never-written key
fails with the dedicated not-found kind, and that kind differs from a
backend error. -/
theorem get_notfound_semantics_witness :
    getQ exTbl "ns" 'b' = .ok "2"
    ∧ getQ exTbl "ns" 'z' = .error (.notFound "Key was not found")
    ∧ LevelErr.notFound "Key was not found" ≠ LevelErr.backend "boom" :=
  ⟨(get_notfound_semantics exTbl "ns" 'b' (by decide)).1 "2" (by decide),
   (get_notfound_semantics exTbl "ns" 'z' (by decide)).2.1 (by
     intro v hv
     have hm : ("ns", 'z') ∈ exTbl.map fun r => (r.ns, r.key) :=
       List.mem_map_of_mem _ hv
     exact absurd hm (by decide)),
   (get_notfound_semantics exTbl "ns" 'z' (by decide)).2.2
     "Key was not found" "boom"⟩

/-- C8 witness: a failing page fetch flips the iterator to terminal and
signals end-of-sequence without an error; the terminal iterator answers
immediately and issues no query, forever. -/
theorem iterator_swallows_errors_witness :
    nextStep errFetch exOpts ⟨0, [], false⟩ = (⟨0, [], true⟩, none, true)
    ∧ nextStep errFetch exOpts ⟨0, [], true⟩ = (⟨0, [], true⟩, none, false)
    ∧ driveCount errFetch exOpts 5 ⟨0, [], true⟩ = ([], 0, 0) :=
  ⟨(iterator_swallows_errors errFetch exOpts ⟨0, [], false⟩ "boom").1 rfl rfl rfl,
   (iterator_swallows_errors errFetch exOpts ⟨0, [], true⟩ "boom").2.1 rfl,
   (iterator_swallows_errors errFetch exOpts ⟨0, [], true⟩ "boom").2.2 rfl 5⟩

/-- C9 witness: a ready store performs no query; a fresh store creates
table and index with two statements and flips the flag; a failing DDL
surfaces its error, leaves the flag unset, and the next call queries
again. -/
theorem ensure_table_semantics_witness :
    ensureTable ⟨true, true, true⟩ (.ok ()) (.ok ()) = (⟨true, true, true⟩, .ok (), 0)
    ∧ ensureTable ⟨false, false, false⟩ (.ok ()) (.ok ()) =
        (⟨true, true, true⟩, .ok (), 2)
    ∧ ensureTable ⟨false, false, false⟩ (.error "ddl") (.ok ()) =
        (⟨false, false, false⟩, .error "ddl", 1)
    ∧ 1 ≤ (ensureTable ⟨false, false, false⟩ (.error "ddl") (.ok ())).2.2 :=
  ⟨(ensure_table_semantics ⟨true, true, true⟩ (.ok ()) (.ok ())).1 rfl,
   (ensure_table_semantics ⟨false, false, false⟩ (.ok ()) (.ok ())).2.1 rfl rfl rfl,
   ((ensure_table_semantics ⟨false, false, false⟩ (.error "ddl") (.ok ())).2.2.1
     "ddl" rfl rfl).1,
   (ensure_table_semantics ⟨false, false, false⟩ (.error "ddl") (.ok ())).2.2.2.2
     rfl⟩

/-- C10 witness: in a two-namespace table, a `get` hit comes from the
store's namespace; the `other`-namespace row passes through `put`,
`delete`, the failing batch and `clear` untouched; and a surfaced page
row is of the store's namespace. -/
theorem namespace_scoping_witness :
    (∃ r ∈ mixTbl, r.ns = "ns" ∧ r.key = 'a' ∧ r.value = "1")
    ∧ ((⟨"other", 'z', "9"⟩ : Row Char String) ∈ putQ mixTbl "ns" 'a' "7" ↔
        (⟨"other", 'z', "9"⟩ : Row Char String) ∈ mixTbl)
    ∧ ((⟨"other", 'z', "9"⟩ : Row Char String) ∈ delQ mixTbl "ns" 'a' ↔
        (⟨"other", 'z', "9"⟩ : Row Char String) ∈ mixTbl)
    ∧ ((⟨"other", 'z', "9"⟩ : Row Char String) ∈
          (batchQ bFails "ns" mixTbl bOps).table ↔
        (⟨"other", 'z', "9"⟩ : Row Char String) ∈ mixTbl)
    ∧ ((⟨"other", 'z', "9"⟩ : Row Char String) ∈ clearQ mixTbl "ns" clOpts ↔
        (⟨"other", 'z', "9"⟩ : Row Char String) ∈ mixTbl)
    ∧ (⟨"ns", 'a', "1"⟩ : Row Char String).ns = "ns" :=
  ⟨(namespace_scoping mixTbl "ns" 'a' "7" [] bFails bOps clOpts
      (iterOptsOfClear clOpts) 0).1 "1" rfl,
   (namespace_scoping mixTbl "ns" 'a' "7" [] bFails bOps clOpts
      (iterOptsOfClear clOpts) 0).2.2.1
    ⟨"other", 'z', "9"⟩ (by decide),
   (namespace_scoping mixTbl "ns" 'a' "7" [] bFails bOps clOpts
      (iterOptsOfClear clOpts) 0).2.2.2.1
    ⟨"other", 'z', "9"⟩ (by decide),
   (namespace_scoping mixTbl "ns" 'a' "7" [] bFails bOps clOpts
      (iterOptsOfClear clOpts) 0).2.2.2.2.1
    ⟨"other", 'z', "9"⟩ (by decide),
   (namespace_scoping mixTbl "ns" 'a' "7" [] bFails bOps clOpts
      (iterOptsOfClear clOpts) 0).2.2.2.2.2.1
    ⟨"other", 'z', "9"⟩ (by decide),
   (namespace_scoping mixTbl "ns" 'a' "7" [] bFails bOps clOpts
      (iterOptsOfClear clOpts) 0).2.2.2.2.2.2
    ⟨"ns", 'a', "1"⟩ (by decide)⟩

end PgLevel
